import Mathlib

/-!
# Verification of the build-record analysis engines

A shallow embedding of the two algorithmic cores of the repository:

* `graph.py` — `BuildTree`: the dependency-graph builder (`__init__`/`add`)
  and the tag trimmer (`_trim_layers`/`trim_excess_tags`);
* `metrics.py` — `ThroughputModel` (sliding throughput window) and
  `ConcurrentModel` (concurrency sweep).

Python dictionaries are modelled as a key list (insertion order, which
Python preserves) together with a total valuation function; Python sets
are `Finset`s; `try/except KeyError` is modelled by `Option` fields for
the dictionary keys the code reads, and uncaught exceptions
(`ValueError` from `json.loads`, `KeyError` outside a `try`, `IndexError`
on an empty list) by `Except` results.
-/

namespace Osbs

/-- An image reference: a plain string (of the form `name:tag` once
well-formed).  Matches the Python code, which keys its sets and
dictionaries by the reference string itself. -/
abbrev Ref := String

/-- A build timestamp as stored in a record: an RFC3339 string.  The code
sorts records by the raw string value, i.e. lexicographically. -/
abbrev Ts := String

/-! ## `graph.py`: the record fields read by `BuildTree` -/

/-- The JSON value stored under the `repositories` annotation: either
unparseable (`json.loads` raises `ValueError`), or a parsed object whose
`primary` key may be absent or hold a list of references. -/
inductive ReposJson where
  | malformed
  | parsed (primary? : Option (List Ref))
deriving DecidableEq

/-- The `metadata.annotations` dictionary of a build record, restricted to
the two keys `BuildTree.add` reads; `none` models an absent key. -/
structure Annotations where
  baseImageName? : Option Ref
  repositories? : Option ReposJson
deriving DecidableEq

/-- A build record, restricted to the fields `BuildTree` reads.
`annotations?` is `none` when `metadata` or `metadata.annotations` is
absent; `start?` is `none` when `status` or `status.startTimestamp` is
absent. -/
structure BuildRecord where
  annotations? : Option Annotations
  start? : Option Ts
deriving DecidableEq

/-- The `deps` dictionary of a `BuildTree`: a `defaultdict(set)` from base
reference to the set of references built from it.  `keys` is the
dictionary's key list in insertion order; `val` gives the stored set of a
key (and is ignored off `keys`). -/
structure Graph where
  keys : List Ref
  val : Ref → Finset Ref

attribute [ext] Graph

/-- `deps.get(r)`: the stored set for a present key, `∅` (modelling the
falsy `None`) for an absent one. -/
def Graph.get (g : Graph) (r : Ref) : Finset Ref :=
  if r ∈ g.keys then g.val r else ∅

/-- The full mutable state of a `BuildTree` instance: the dependency
graph `deps`, the global dedup set `seen`, and the timestamp map `when`. -/
structure BuildState where
  graph : Graph
  seen : Finset Ref
  when : Ref → Option Ts

/-- The state set up by `BuildTree.__init__` before any record is added:
empty `defaultdict(set)`, empty `seen`, empty `when`. -/
def initState : BuildState :=
  { graph := { keys := [], val := fun _ => ∅ }, seen := ∅, when := fun _ => none }

/-- The two exceptions `BuildTree.add` can let escape: `ValueError` from
`json.loads` on an unparseable `repositories` payload (raised inside the
`try` block, which only catches `KeyError`), and `KeyError` from
`repositories['primary']`, evaluated after the `try` block. -/
inductive AddErr where
  | keyError
  | valueError
deriving DecidableEq

/-- The state update performed by the body of `BuildTree.add` once all
lookups succeeded: strip the produced references, drop the ones already
in `seen`, record the rest under the (stripped) base, and remember their
timestamp.  `strip` is `osbs.utils.strip_registry_from_image`, an external
collaborator kept abstract here. -/
def applyRecord (strip : Ref → Ref) (st : BuildState) (baseImageName : Ref)
    (primary : List Ref) (when : Ts) : BuildState :=
  let repos : Finset Ref := (primary.map strip).toFinset \ st.seen
  let base : Ref := strip baseImageName
  { graph :=
      { keys := if base ∈ st.graph.keys then st.graph.keys else st.graph.keys ++ [base]
      , val := Function.update st.graph.val base (st.graph.get base ∪ repos) }
  , seen := st.seen ∪ repos
  , when := fun r => if r ∈ repos then some when else st.when r }

/-- `BuildTree.add`.  A missing dictionary key inside the `try` block is a
caught `KeyError`: the record is skipped and the state unchanged.  An
unparseable `repositories` payload raises `ValueError`, which the
`except KeyError` clause does not catch; a parsed payload without a
`primary` key raises `KeyError` outside the `try` block. -/
def add (strip : Ref → Ref) (st : BuildState) (b : BuildRecord) :
    Except AddErr BuildState :=
  match b.annotations? with
  | none => .ok st
  | some ann =>
    match ann.baseImageName? with
    | none => .ok st
    | some baseImageName =>
      match ann.repositories? with
      | none => .ok st
      | some .malformed => .error .valueError
      | some (.parsed primary?) =>
        match b.start? with
        | none => .ok st
        | some when =>
          match primary? with
          | none => .error .keyError
          | some primary => .ok (applyRecord strip st baseImageName primary when)

/-- The `for build in builds: self.add(build)` loop of `__init__`. -/
def addAll (strip : Ref → Ref) (st : BuildState) :
    List BuildRecord → Except AddErr BuildState
  | [] => .ok st
  | b :: rest =>
    match add strip st b with
    | .error e => .error e
    | .ok st' => addAll strip st' rest

/-- The sort key of `__init__`: `build['status']['startTimestamp']`.  The
default is irrelevant: the key is only applied to records that passed the
filter, which guarantees the timestamp is present. -/
def startKey (b : BuildRecord) : Ts := b.start?.getD ""

/-- The comparator realising `sort(key=startTimestamp, reverse=True)`:
descending start-timestamp order. -/
def recOrder (a b : BuildRecord) : Bool := decide (startKey b ≤ startKey a)

/-- `BuildTree.__init__`: keep the records that have a `status` with a
`startTimestamp`, sort them by start timestamp in descending order
(stable, as Python's sort is), and add them in turn. -/
def buildTree (strip : Ref → Ref) (builds : List BuildRecord) :
    Except AddErr BuildState :=
  addAll strip initState
    (((builds.filter fun b => b.start?.isSome).mergeSort recOrder))

/-! ## `graph.py`: the tag trimmer -/

/-- `layer.split(':', 1)`: split a reference at its first `':'` into
`(name, version)`.  `none` models the `ValueError` raised when the
two-variable unpacking fails because the string has no `':'`. -/
def splitTagChars : List Char → Option (List Char × List Char)
  | [] => none
  | c :: rest =>
    if c = ':' then some ([], rest)
    else
      match splitTagChars rest with
      | none => none
      | some (n, v) => some (c :: n, v)

/-- String-level wrapper of `splitTagChars`. -/
def splitTag (s : Ref) : Option (Ref × Ref) :=
  match splitTagChars s.data with
  | none => none
  | some (n, v) => some (⟨n⟩, ⟨v⟩)

/-- The `version == 'latest'` test of `_trim_layers` (the `name` part of
the split is unused by the code). -/
def isLatest (layer : Ref) : Bool :=
  match splitTag layer with
  | some (_, version) => version == "latest"
  | none => false

/-- The condition under which `_trim_layers` puts `layer` into `excess`:
not tagged `latest`, and `self.deps.get(layer)` is falsy (absent key or
empty set). -/
def removable (g : Graph) (layer : Ref) : Bool :=
  !isLatest layer && decide (g.get layer = ∅)

/-- The exceptions the trimmer can produce: `ValueError` from the
unpacking `name, version = layer.split(':', 1)` on a reference without a
`':'`, and `fuel` for exhaustion of the loop fuel of `trimLoop` — the
latter is provably unreachable for the fuel `trimExcessTags` supplies
(see the termination theorem below). -/
inductive TrimErr where
  | valueError
  | fuel
deriving DecidableEq

/-- `BuildTree._trim_layers(base)`: split every layer of `deps[base]`
(raising `ValueError` if any layer has no `':'`), collect the removable
ones into `excess`, subtract `excess` from `deps[base]`, and return
`excess`.  The key list is unchanged (every call site passes a present
key). -/
def trimLayers (g : Graph) (base : Ref) : Except TrimErr (Graph × Finset Ref) :=
  if ∀ l ∈ g.get base, (splitTag l).isSome then
    let excess := (g.get base).filter fun l => removable g l = true
    .ok ({ keys := g.keys, val := Function.update g.val base (g.get base \ excess) }, excess)
  else
    .error .valueError

/-- One full pass of `trim_excess_tags` over the snapshot `images` of the
key list: visit each base in order, trim it when `deps.get(base)` is
truthy, and accumulate whether anything was removed. -/
def trimPass (g : Graph) : List Ref → Except TrimErr (Graph × Bool)
  | [] => .ok (g, false)
  | base :: rest =>
    if (g.get base).Nonempty then
      match trimLayers g base with
      | .error e => .error e
      | .ok (g', excess) =>
        match trimPass g' rest with
        | .error e => .error e
        | .ok (g'', any) => .ok (g'', decide excess.Nonempty || any)
    else
      trimPass g rest

/-- The `while True` loop of `trim_excess_tags`, written with explicit
loop fuel: run a full pass, stop as soon as a pass removed nothing.
`trimExcessTags` supplies fuel that provably never runs out. -/
def trimLoop : Graph → Nat → Except TrimErr Graph
  | _, 0 => .error .fuel
  | g, fuel + 1 =>
    match trimPass g g.keys with
    | .error e => .error e
    | .ok (g', any) => if any then trimLoop g' fuel else .ok g

/-- Total number of edges of the graph: the sum over the key list of the
sizes of the stored sets.  This is the termination measure of the
fixed-point loop. -/
def edgeCount (g : Graph) : Nat := (g.keys.map fun b => (g.get b).card).sum

/-- `BuildTree.trim_excess_tags`: iterate full passes until one removes
nothing.  `edgeCount g + 1` units of fuel always suffice, because a pass
that removes anything strictly decreases `edgeCount`. -/
def trimExcessTags (g : Graph) : Except TrimErr Graph :=
  trimLoop g (edgeCount g + 1)

/-! ## `metrics.py`: `ThroughputModel` and `ConcurrentModel`

Instants here are the integer epoch timestamps produced by
`rfc3339_time` (`timegm` of the parsed RFC3339 string). -/

/-- The state of a `ThroughputModel`: the retained completion instants,
the recorded window start, and the configured window duration. -/
structure ThroughputModel where
  builds : List Int
  start_time : Option Int
  window : Int
deriving DecidableEq

/-- The eviction loop of `ThroughputModel.append`:
`while self.builds[-1] - self.builds[0] >= self.window: del self.builds[0]`.
Evaluating `self.builds[-1]` on an empty list raises `IndexError`,
modelled as `.error ()`. -/
def tputEvict (window : Int) : List Int → Except Unit (List Int)
  | [] => .error ()
  | t :: rest =>
    if (t :: rest).getLast (by simp) - t ≥ window then tputEvict window rest
    else .ok (t :: rest)

/-- `ThroughputModel.append(timestamp)`: record the window start on the
first call, append the instant, evict from the front, and return the
resulting window length. -/
def tputAppend (m : ThroughputModel) (timestamp : Int) :
    Except Unit (Nat × ThroughputModel) :=
  let start_time := if m.builds.isEmpty then some timestamp else m.start_time
  match tputEvict m.window (m.builds ++ [timestamp]) with
  | .error e => .error e
  | .ok builds =>
    .ok (builds.length, { builds := builds, start_time := start_time, window := m.window })

/-- The inner `while self.finish_times:` loop of
`ConcurrentModel.get_nbuilds`, for one interval start: retire every
pending finish instant that is not greater than `start` (the loop breaks
only when `start < finish_times[0]`), emitting
`(finish, count after its removal)` for each. -/
def drain (start : Int) : List Int → List (Int × Nat) × List Int
  | [] => ([], [])
  | f :: rest =>
    if start < f then ([], f :: rest)
    else
      let (evs, p) := drain start rest
      ((f, rest.length) :: evs, p)

/-- The main loop of `get_nbuilds` over the recorded `start_finish` list,
with `pending` playing the role of `finish_times`.  The code's
`finish_times.append(finish); finish_times.sort()` is modelled by
insertion-sorting the appended list: on a list of integers every sorting
algorithm returns the same list. -/
def getNbuildsFrom (pending : List Int) : List (Int × Int) → List (Int × Nat)
  | [] => []
  | (start, finish) :: rest =>
    let (evs, p) := drain start pending
    let p' := List.insertionSort (· ≤ ·) (p ++ [finish])
    evs ++ (start, p'.length) :: getNbuildsFrom p' rest

/-- `ConcurrentModel`: `append` all the intervals (in the caller's order)
and then run `get_nbuilds` to completion.  Note the generator ends with
the interval list: pending finish instants are never flushed afterwards. -/
def getNbuilds (intervals : List (Int × Int)) : List (Int × Nat) :=
  getNbuildsFrom [] intervals

/-! ## Derived predicates, accessors and concrete fixtures used by the
theorems below -/

/-- A record passes the input filter and takes the full update path of
`add` (no lookup fails, the `primary` key is present): it has a start
timestamp, annotations, a base-image name and a parsed `repositories`
payload with a `primary` list. -/
def processedOk (b : BuildRecord) : Bool :=
  b.start?.isSome &&
    match b.annotations? with
    | none => false
    | some ann =>
      ann.baseImageName?.isSome &&
        match ann.repositories? with
        | some (.parsed (some _)) => true
        | _ => false

/-- The `primary` list of a record (empty when absent). -/
def primaryOf (b : BuildRecord) : List Ref :=
  match b.annotations? with
  | some ann =>
    match ann.repositories? with
    | some (.parsed (some primary)) => primary
    | _ => []
  | none => []

/-- The raw base-image name of a record (defaulted when absent; only
meaningful under `processedOk`). -/
def baseNameOf (b : BuildRecord) : Ref :=
  match b.annotations? with
  | some ann => ann.baseImageName?.getD ""
  | none => ""

/-- The set of references a record claims to have produced, after
normalization. -/
def producedRefs (strip : Ref → Ref) (b : BuildRecord) : List Ref :=
  (primaryOf b).map strip

/-- The normalized base reference of a record. -/
def baseRefOf (strip : Ref → Ref) (b : BuildRecord) : Ref :=
  strip (baseNameOf b)

/-- The invariant maintained by the builder: every recorded derived
reference is in `seen`, and the derived sets of distinct bases are
disjoint. -/
def DisjInv (st : BuildState) : Prop :=
  (∀ r, st.graph.get r ⊆ st.seen) ∧
    ∀ b1 b2 : Ref, b1 ≠ b2 → Disjoint (st.graph.get b1) (st.graph.get b2)

/-- A record whose `repositories` annotation is present but does not
parse; it passes the `startTimestamp` input filter. -/
def malformedRecord : BuildRecord :=
  { annotations? := some { baseImageName? := some "base:1", repositories? := some .malformed }
  , start? := some "2016-01-01T00:00:00Z" }

/-- A one-edge graph whose only layer carries the `latest` tag. -/
def latestGraph : Graph :=
  { keys := ["a:1"], val := fun r => if r = "a:1" then {"b:latest"} else ∅ }

/-- A graph holding one derived reference with no `':'` separator. -/
def badGraph : Graph :=
  { keys := ["a:1"], val := fun r => if r = "a:1" then {"nocolon"} else ∅ }

/-- A fully populated record for the C2 witness scenario. -/
def wRecord : BuildRecord :=
  { annotations? := some { baseImageName? := some "base:1"
                         , repositories? := some (.parsed (some ["img:1"])) }
  , start? := some "2016-01-02T00:00:00Z" }

/-- The state produced by processing `wRecord` from the initial state. -/
def wState : BuildState :=
  applyRecord id initState "base:1" ["img:1"] "2016-01-02T00:00:00Z"

/-! Small sanity checks of the builder definitions. -/

example : buildTree id [] = .ok initState := by simp [buildTree, addAll]

example :
    add id initState { annotations? := none, start? := some "t" } = .ok initState := rfl

example :
    add id initState
      { annotations? := some { baseImageName? := some "b:1", repositories? := some .malformed }
      , start? := some "t" } = .error .valueError := rfl

example :
    (applyRecord id initState "b:1" ["i:1"] "t").graph.get "b:1" = {"i:1"} := by decide

/-! Sanity checks of the trimmer and metrics definitions. -/

example : splitTag "a:b:c" = some ("a", "b:c") := by decide
example : splitTag "abc" = none := by decide
example : isLatest "x:latest" = true := by decide
example : isLatest "x:1.0" = false := by decide

example :
    trimExcessTags { keys := ["a:1"], val := fun r => if r = "a:1" then {"b:2"} else ∅ } =
      .ok { keys := ["a:1"], val := Function.update (fun r => if r = "a:1" then ({"b:2"} : Finset Ref) else ∅) "a:1" ({"b:2"} \ {"b:2"}) } := by
  rfl

example : getNbuilds [(1, 5), (2, 3), (6, 8)] = [(1, 1), (2, 2), (3, 1), (5, 0), (6, 1)] := by
  decide

example : tputAppend { builds := [], start_time := none, window := 0 } 0 = .error () := by
  rfl

example : tputAppend { builds := [], start_time := none, window := 3600 } 0 =
    .ok (1, { builds := [0], start_time := some 0, window := 3600 }) := by rfl

/-! ## Lemmas about the builder -/

theorem applyRecord_get_base (strip : Ref → Ref) (st : BuildState) (bn : Ref)
    (primary : List Ref) (w : Ts) :
    (applyRecord strip st bn primary w).graph.get (strip bn) =
      st.graph.get (strip bn) ∪ ((primary.map strip).toFinset \ st.seen) := by
  simp only [applyRecord, Graph.get]
  by_cases h : strip bn ∈ st.graph.keys
  · simp [h, Function.update]
  · simp [h, Function.update]

theorem applyRecord_get_ne (strip : Ref → Ref) (st : BuildState) (bn : Ref)
    (primary : List Ref) (w : Ts) (r : Ref) (hr : r ≠ strip bn) :
    (applyRecord strip st bn primary w).graph.get r = st.graph.get r := by
  simp only [applyRecord, Graph.get]
  by_cases h : strip bn ∈ st.graph.keys
  · simp [h, Function.update, hr]
  · by_cases hrk : r ∈ st.graph.keys
    · simp [h, Function.update, hr, hrk]
    · simp [h, Function.update, hr, hrk]

theorem applyRecord_seen (strip : Ref → Ref) (st : BuildState) (bn : Ref)
    (primary : List Ref) (w : Ts) :
    (applyRecord strip st bn primary w).seen =
      st.seen ∪ ((primary.map strip).toFinset \ st.seen) := rfl

/-- Case analysis of a successful `add`: either some `try`-block lookup
failed with a caught `KeyError` and the record was skipped, or every
lookup succeeded and the state update ran. -/
theorem add_cases (strip : Ref → Ref) (st : BuildState) (b : BuildRecord)
    (st' : BuildState) (h : add strip st b = .ok st') :
    st' = st ∨
      ∃ ann bn primary w, b.annotations? = some ann ∧
        ann.baseImageName? = some bn ∧
        ann.repositories? = some (.parsed (some primary)) ∧
        b.start? = some w ∧
        st' = applyRecord strip st bn primary w := by
  obtain ⟨ann?, s?⟩ := b
  cases ann? with
  | none =>
    left
    simp [add] at h
    exact h.symm
  | some ann =>
    obtain ⟨bn?, rp?⟩ := ann
    cases bn? with
    | none =>
      left
      simp [add] at h
      exact h.symm
    | some bn =>
      cases rp? with
      | none =>
        left
        simp [add] at h
        exact h.symm
      | some rp =>
        cases rp with
        | malformed => simp [add] at h
        | parsed primary? =>
          cases s? with
          | none =>
            left
            simp [add] at h
            exact h.symm
          | some w =>
            cases primary? with
            | none => simp [add] at h
            | some primary =>
              right
              refine ⟨⟨some bn, some (.parsed (some primary))⟩, bn, primary, w,
                rfl, rfl, rfl, rfl, ?_⟩
              simp [add] at h
              exact h.symm


theorem disjInv_init : DisjInv initState := by
  constructor
  · intro r
    simp [initState, Graph.get]
  · intro b1 b2 _
    simp [initState, Graph.get]

theorem disjInv_applyRecord (strip : Ref → Ref) (st : BuildState) (bn : Ref)
    (primary : List Ref) (w : Ts) (hinv : DisjInv st) :
    DisjInv (applyRecord strip st bn primary w) := by
  obtain ⟨hsub, hdisj⟩ := hinv
  constructor
  · intro r
    rw [applyRecord_seen]
    by_cases hr : r = strip bn
    · subst hr
      rw [applyRecord_get_base]
      exact Finset.union_subset_union (hsub _) (by rfl)
    · rw [applyRecord_get_ne _ _ _ _ _ _ hr]
      exact (hsub r).trans Finset.subset_union_left
  · intro b1 b2 hne
    by_cases h1 : b1 = strip bn
    · subst h1
      have h2 : b2 ≠ strip bn := fun hc => hne hc.symm
      rw [applyRecord_get_base, applyRecord_get_ne _ _ _ _ _ _ h2]
      refine Finset.disjoint_union_left.mpr ⟨hdisj _ _ hne, ?_⟩
      exact Finset.disjoint_left.mpr fun a ha hb =>
        (Finset.mem_sdiff.mp ha).2 (hsub b2 hb)
    · rw [applyRecord_get_ne _ _ _ _ _ _ h1]
      by_cases h2 : b2 = strip bn
      · subst h2
        rw [applyRecord_get_base]
        refine Finset.disjoint_union_right.mpr ⟨hdisj _ _ hne, ?_⟩
        exact Finset.disjoint_right.mpr fun a ha hb =>
          (Finset.mem_sdiff.mp ha).2 (hsub b1 hb)
      · rw [applyRecord_get_ne _ _ _ _ _ _ h2]
        exact hdisj _ _ hne

theorem disjInv_add (strip : Ref → Ref) (st st' : BuildState) (b : BuildRecord)
    (h : add strip st b = .ok st') (hinv : DisjInv st) : DisjInv st' := by
  rcases add_cases strip st b st' h with heq | ⟨ann, bn, primary, w, _, _, _, _, heq⟩
  · exact heq ▸ hinv
  · exact heq ▸ disjInv_applyRecord strip st bn primary w hinv

theorem disjInv_addAll (strip : Ref → Ref) (l : List BuildRecord) :
    ∀ st st', addAll strip st l = .ok st' → DisjInv st → DisjInv st' := by
  induction l with
  | nil =>
    intro st st' h hinv
    simp [addAll] at h
    exact h ▸ hinv
  | cons b rest ih =>
    intro st st' h hinv
    simp only [addAll] at h
    cases hb : add strip st b with
    | error e => rw [hb] at h; exact absurd h (by simp)
    | ok st1 =>
      rw [hb] at h
      exact ih st1 st' h (disjInv_add strip st st1 b hb hinv)

/-- C1: after `BuildTree.__init__` completes without an exception, no
image reference appears in the derived set of more than one base: the
derived sets of the dependency graph are pairwise disjoint. -/
theorem builder_derived_sets_disjoint (strip : Ref → Ref)
    (builds : List BuildRecord) (st : BuildState)
    (h : buildTree strip builds = .ok st) (b1 b2 : Ref) (hne : b1 ≠ b2) :
    Disjoint (st.graph.get b1) (st.graph.get b2) :=
  (disjInv_addAll strip _ initState st h disjInv_init).2 b1 b2 hne

/-- Witness for C1 at a concrete input. -/
theorem builder_derived_sets_disjoint_witness :
    buildTree id [] = .ok initState ∧
      Disjoint (initState.graph.get "a:1") (initState.graph.get "b:1") := by
  have h : buildTree id [] = .ok initState := by simp [buildTree, addAll]
  exact ⟨h, builder_derived_sets_disjoint id [] initState h "a:1" "b:1" (by decide)⟩

/-! ## C8: a present-but-unparseable `repositories` payload -/


/-- Counterexample to C8: a record with a present but unparseable
`repositories` annotation is NOT skipped — `json.loads` raises
`ValueError`, which `except KeyError` does not catch, so the whole run
aborts instead of leaving the state unchanged. -/
theorem malformed_repositories_counterexample :
    buildTree id [malformedRecord] = .error .valueError ∧
      buildTree id [malformedRecord] ≠ .ok initState := by
  have h : buildTree id [malformedRecord] = .error .valueError := by
    simp [buildTree, addAll, add, malformedRecord]
  exact ⟨h, by rw [h]; simp⟩

/-- C8 as amended: a record with a missing `metadata.annotations`,
`base-image-name`, `repositories` or `startTimestamp` key is silently
skipped with the state unchanged, but a present, unparseable
`repositories` payload raises `ValueError` (uncaught) instead of being
skipped. -/
theorem add_skip_or_raise (strip : Ref → Ref) (st : BuildState) (b : BuildRecord) :
    (b.annotations? = none → add strip st b = .ok st) ∧
    (∀ ann, b.annotations? = some ann → ann.baseImageName? = none →
      add strip st b = .ok st) ∧
    (∀ ann bn, b.annotations? = some ann → ann.baseImageName? = some bn →
      ann.repositories? = none → add strip st b = .ok st) ∧
    (∀ ann bn p?, b.annotations? = some ann → ann.baseImageName? = some bn →
      ann.repositories? = some (.parsed p?) → b.start? = none →
      add strip st b = .ok st) ∧
    (∀ ann bn, b.annotations? = some ann → ann.baseImageName? = some bn →
      ann.repositories? = some .malformed → add strip st b = .error .valueError) := by
  refine ⟨fun h => ?_, fun ann h1 h2 => ?_, fun ann bn h1 h2 h3 => ?_,
    fun ann bn p? h1 h2 h3 h4 => ?_, fun ann bn h1 h2 h3 => ?_⟩
  · simp [add, h]
  · simp [add, h1, h2]
  · simp [add, h1, h2, h3]
  · simp [add, h1, h2, h3, h4]
  · simp [add, h1, h2, h3]

/-- Witness for the amended C8: one concrete skipped record (missing
annotations) and one concrete raising record (malformed payload). -/
theorem add_skip_or_raise_witness :
    add id initState { annotations? := none, start? := some "t" } = .ok initState ∧
      add id initState malformedRecord = .error .valueError := by
  constructor
  · exact (add_skip_or_raise id initState
      { annotations? := none, start? := some "t" }).1 rfl
  · exact (add_skip_or_raise id initState malformedRecord).2.2.2.2
      { baseImageName? := some "base:1", repositories? := some .malformed } "base:1"
      rfl rfl rfl

/-! ## C6: the worked concurrency example -/

/-- Counterexample to C6: the spec's example output claims a trailing
`(8, 0)` finish event, but the generator ends with the interval list and
never flushes the pending finish instants, so `(8, 0)` is not produced. -/
theorem concurrent_example_counterexample :
    getNbuilds [(1, 5), (2, 3), (6, 8)] ≠
      [(1, 1), (2, 2), (3, 1), (5, 0), (6, 1), (8, 0)] := by decide

/-- C6 as amended: intervals `(1,5),(2,3),(6,8)` appended in start order
yield exactly the events `(1,1),(2,2),(3,1),(5,0),(6,1)` — the trailing
finish of the last interval is never emitted. -/
theorem concurrent_example_events :
    getNbuilds [(1, 5), (2, 3), (6, 8)] =
      [(1, 1), (2, 2), (3, 1), (5, 0), (6, 1)] := by decide

/-! ## C7: non-positive window duration -/

/-- Counterexample to C7: with `window = 0`, `append` does not return 1
without error — the eviction loop empties the list and then
`self.builds[-1]` raises `IndexError`.  This happens already on the very
first call, and on any later call as well. -/
theorem tput_nonpositive_counterexample :
    tputAppend { builds := [], start_time := none, window := 0 } 0 = .error () ∧
      tputAppend { builds := [5], start_time := some 5, window := 0 } 6 = .error () :=
  ⟨rfl, rfl⟩

theorem tputEvict_nonpositive (w : Int) (hw : w ≤ 0) :
    ∀ (l : List Int) (ts : Int), (∀ x ∈ l, x ≤ ts) →
      tputEvict w (l ++ [ts]) = .error () := by
  intro l
  induction l with
  | nil =>
    intro ts _
    simp only [List.nil_append]
    simp [tputEvict]
    exact hw
  | cons x rest ih =>
    intro ts hle
    have hne : rest ++ [ts] ≠ [] := by simp
    have hcond : (x :: (rest ++ [ts])).getLast (by simp) - x ≥ w := by
      rw [List.getLast_cons hne, List.getLast_concat]
      have : x ≤ ts := hle x (by simp)
      omega
    have hstep : tputEvict w ((x :: rest) ++ [ts]) = tputEvict w (rest ++ [ts]) := by
      rw [List.cons_append]
      simp only [tputEvict]
      rw [if_pos hcond]
    rw [hstep]
    exact ih ts fun y hy => hle y (by simp [hy])

/-- C7 as amended: if `window` is non-positive, then as long as the
stored instants do not exceed the appended one (the documented
non-decreasing input regime, trivially true on the first call), EVERY
call to `append` — including the first — empties the window and raises
`IndexError` when the eviction loop re-reads `self.builds[-1]` on the
empty list; no call returns a count. -/
theorem tput_nonpositive_raises (m : ThroughputModel) (ts : Int)
    (hw : m.window ≤ 0) (hmono : ∀ x ∈ m.builds, x ≤ ts) :
    tputAppend m ts = .error () := by
  have h := tputEvict_nonpositive m.window hw m.builds ts hmono
  simp [tputAppend, h]

/-- Witness for the amended C7 at a concrete input. -/
theorem tput_nonpositive_raises_witness :
    tputAppend { builds := [2, 4], start_time := some 2, window := -1 } 9 = .error () :=
  tput_nonpositive_raises { builds := [2, 4], start_time := some 2, window := -1 } 9
    (by decide) (by decide)

/-! ## C5: the retirement comparison of the concurrency sweep -/

/-- Counterexample to C5: the retirement loop is NOT strict.  A pending
finish instant equal to the incoming start is retired and emitted as a
finish event (the loop only breaks when `start < finish_times[0]`):
`drain 5 [5]` retires the pending `5` and emits `(5, 0)`, rather than
keeping it as the claim's strict `<` would (`([], [5])`).  Consequently
for intervals `(1,5),(5,8)` the instant `5` is emitted first as a finish
event `(5,0)` and then as a start event `(5,1)`, not as a single start
event with both builds counted concurrent. -/
theorem drain_tie_counterexample :
    drain 5 [5] = ([(5, 0)], []) ∧ drain 5 [5] ≠ ([], [5]) ∧
      getNbuilds [(1, 5), (5, 8)] = [(1, 1), (5, 0), (5, 1)] := by decide

/-- C5 as amended: the retirement loop uses the non-strict comparison —
a pending finish instant is emitted as a finish event and removed while
it is `≤` the start of the interval being processed (the loop breaks
only when `start < finish`), so an interval finishing exactly when
another starts is retired at that instant as a finish event, after which
the start event follows.  `drain` retires exactly the maximal prefix of
pending finish instants that are `≤ start`. -/
theorem drain_retires_nonstrict (s : Int) (p : List Int) :
    drain s p =
      ((p.takeWhile fun f => decide (f ≤ s)).enum.map
          fun q => (q.2, p.length - 1 - q.1),
        p.dropWhile fun f => decide (f ≤ s)) := by
  induction p with
  | nil => simp [drain]
  | cons f rest ih =>
    by_cases h : s < f
    · have hf : ¬(f ≤ s) := by omega
      simp [drain, h, List.takeWhile_cons, List.dropWhile_cons, hf]
    · have hf : f ≤ s := by omega
      have hdrain : drain s (f :: rest) =
          ((f, rest.length) :: (drain s rest).1, (drain s rest).2) := by
        simp [drain, if_neg h]
      rw [hdrain, ih]
      simp only [List.takeWhile_cons, List.dropWhile_cons, decide_eq_true hf,
        if_true, List.enum_cons', List.map_cons, List.map_map, List.length_cons,
        Prod.map_apply, id_eq, Prod.mk.injEq, List.cons.injEq]
      refine ⟨⟨⟨trivial, by omega⟩, ?_⟩, trivial⟩
      apply List.map_congr_left
      intro q _
      obtain ⟨i, v⟩ := q
      simp only [Function.comp_apply, Prod.map_apply, id_eq, Prod.mk.injEq, true_and]
      omega

/-! ## Lemmas about the trimmer -/

theorem Graph.mem_keys_of_mem_get (g : Graph) (b layer : Ref)
    (h : layer ∈ g.get b) : b ∈ g.keys := by
  by_contra hb
  simp [Graph.get, hb] at h

/-- Anatomy of a successful `_trim_layers` call: `excess` is the set of
removable layers of `deps[base]`, the key list is unchanged, and only the
entry at `base` shrinks, by exactly `excess`. -/
theorem trimLayers_ok (g : Graph) (base : Ref) (g' : Graph) (excess : Finset Ref)
    (h : trimLayers g base = .ok (g', excess)) :
    excess = (g.get base).filter (fun l => removable g l = true) ∧
      g'.keys = g.keys ∧
      g'.val = Function.update g.val base (g.get base \ excess) ∧
      g'.get base = g.get base \ excess ∧
      (∀ r, r ≠ base → g'.get r = g.get r) := by
  unfold trimLayers at h
  split at h
  · simp only [Except.ok.injEq, Prod.mk.injEq] at h
    obtain ⟨hg, he⟩ := h
    subst he
    refine ⟨rfl, ?_, ?_, ?_, ?_⟩
    · rw [← hg]
    · rw [← hg]
    · rw [← hg]
      simp only [Graph.get]
      by_cases hb : base ∈ g.keys
      · simp [hb, Function.update]
      · simp [hb]
    · intro r hr
      rw [← hg]
      simp only [Graph.get]
      by_cases hrk : r ∈ g.keys
      · simp [hrk, Function.update, hr]
      · simp [hrk]
  · exact absurd h (by simp)

theorem trimLayers_get_subset (g : Graph) (base : Ref) (g' : Graph)
    (excess : Finset Ref) (h : trimLayers g base = .ok (g', excess)) :
    ∀ r, g'.get r ⊆ g.get r := by
  obtain ⟨_, _, _, hbase, hne⟩ := trimLayers_ok g base g' excess h
  intro r
  by_cases hr : r = base
  · subst hr
    rw [hbase]
    exact Finset.sdiff_subset
  · rw [hne r hr]

theorem edgeCount_le (g g' : Graph) (hk : g'.keys = g.keys)
    (hsub : ∀ r, g'.get r ⊆ g.get r) : edgeCount g' ≤ edgeCount g := by
  unfold edgeCount
  rw [hk]
  apply List.sum_le_sum
  intro b _
  exact Finset.card_le_card (hsub b)

theorem edgeCount_lt (g g' : Graph) (hk : g'.keys = g.keys)
    (hsub : ∀ r, g'.get r ⊆ g.get r) (b0 : Ref) (hb0 : b0 ∈ g.keys)
    (hlt : (g'.get b0).card < (g.get b0).card) : edgeCount g' < edgeCount g := by
  obtain ⟨k1, k2, hsplit⟩ := List.append_of_mem hb0
  unfold edgeCount
  rw [hk, hsplit]
  simp only [List.map_append, List.map_cons, List.sum_append, List.sum_cons]
  have h1 : (k1.map fun b => (g'.get b).card).sum ≤ (k1.map fun b => (g.get b).card).sum :=
    List.sum_le_sum fun b _ => Finset.card_le_card (hsub b)
  have h2 : (k2.map fun b => (g'.get b).card).sum ≤ (k2.map fun b => (g.get b).card).sum :=
    List.sum_le_sum fun b _ => Finset.card_le_card (hsub b)
  omega

/-- A successful pass keeps the key list and only shrinks the stored
sets. -/
theorem trimPass_ok (l : List Ref) :
    ∀ (g g' : Graph) (any : Bool), trimPass g l = .ok (g', any) →
      g'.keys = g.keys ∧ ∀ r, g'.get r ⊆ g.get r := by
  induction l with
  | nil =>
    intro g g' any h
    simp only [trimPass, Except.ok.injEq, Prod.mk.injEq] at h
    rw [← h.1]
    exact ⟨rfl, fun r => by rfl⟩
  | cons base rest ih =>
    intro g g' any h
    simp only [trimPass] at h
    by_cases hne : (g.get base).Nonempty
    · rw [if_pos hne] at h
      split at h
      · exact absurd h (by simp)
      · rename_i g1 ex htl
        split at h
        · exact absurd h (by simp)
        · rename_i g2 any2 hp
          simp only [Except.ok.injEq, Prod.mk.injEq] at h
          obtain ⟨hg, -⟩ := h
          subst hg
          obtain ⟨hk1, hs1⟩ := ih g1 g2 any2 hp
          obtain ⟨-, hk0, -, -, -⟩ := trimLayers_ok g base g1 ex htl
          exact ⟨hk1.trans hk0, fun r =>
            (hs1 r).trans (trimLayers_get_subset g base g1 ex htl r)⟩
    · rw [if_neg hne] at h
      exact ih g g' any h

theorem trimPass_error_is_value (l : List Ref) :
    ∀ (g : Graph) (e : TrimErr), trimPass g l = .error e → e = .valueError := by
  induction l with
  | nil => intro g e h; exact absurd h (by simp [trimPass])
  | cons base rest ih =>
    intro g e h
    simp only [trimPass] at h
    by_cases hne : (g.get base).Nonempty
    · rw [if_pos hne] at h
      split at h
      · rename_i e' htl
        simp only [Except.error.injEq] at h
        rw [← h]
        unfold trimLayers at htl
        split at htl
        · exact absurd htl (by simp)
        · simp only [Except.error.injEq] at htl
          exact htl.symm
      · rename_i g1 ex htl
        split at h
        · rename_i e' hp
          simp only [Except.error.injEq] at h
          rw [← h]
          exact ih g1 e' hp
        · exact absurd h (by simp)
    · rw [if_neg hne] at h
      exact ih g e h

/-- A pass that reports `any_trimmed = false` changed nothing. -/
theorem trimPass_false_eq (l : List Ref) :
    ∀ (g g' : Graph), trimPass g l = .ok (g', false) → g' = g := by
  induction l with
  | nil =>
    intro g g' h
    simp only [trimPass, Except.ok.injEq, Prod.mk.injEq] at h
    exact h.1.symm
  | cons base rest ih =>
    intro g g' h
    simp only [trimPass] at h
    by_cases hne : (g.get base).Nonempty
    · rw [if_pos hne] at h
      split at h
      · exact absurd h (by simp)
      · rename_i g1 ex htl
        split at h
        · exact absurd h (by simp)
        · rename_i g2 any2 hp
          simp only [Except.ok.injEq, Prod.mk.injEq, Bool.or_eq_false_iff,
            decide_eq_false_iff_not] at h
          obtain ⟨hg, hex, hany⟩ := h
          subst hany
          have hexe : ex = ∅ := Finset.not_nonempty_iff_eq_empty.mp hex
          have hg1 : g1 = g := by
            obtain ⟨-, hk0, hv0, -, -⟩ := trimLayers_ok g base g1 ex htl
            have hbk : base ∈ g.keys := by
              rcases hne with ⟨x, hx⟩
              exact Graph.mem_keys_of_mem_get g base x hx
            ext1
            · exact hk0
            · rw [hv0, hexe]
              rw [Finset.sdiff_empty]
              simp only [Graph.get, hbk, if_pos]
              exact Function.update_eq_self base g.val
          rw [hg1] at hp
          rw [← hg]
          exact ih g g2 hp
    · rw [if_neg hne] at h
      exact ih g g' h

/-- A pass that reports `any_trimmed = true` strictly decreases the total
edge count. -/
theorem trimPass_true_lt (l : List Ref) :
    ∀ (g g' : Graph), l ⊆ g.keys → trimPass g l = .ok (g', true) →
      edgeCount g' < edgeCount g := by
  induction l with
  | nil =>
    intro g g' _ h
    simp only [trimPass, Except.ok.injEq, Prod.mk.injEq] at h
    exact absurd h.2 (by simp)
  | cons base rest ih =>
    intro g g' hsub h
    simp only [trimPass] at h
    by_cases hne : (g.get base).Nonempty
    · rw [if_pos hne] at h
      split at h
      · exact absurd h (by simp)
      · rename_i g1 ex htl
        split at h
        · exact absurd h (by simp)
        · rename_i g2 any2 hp
          simp only [Except.ok.injEq, Prod.mk.injEq] at h
          obtain ⟨hg, hor⟩ := h
          subst hg
          obtain ⟨hexcess, hk0, -, hgetb, -⟩ := trimLayers_ok g base g1 ex htl
          obtain ⟨hk1, hs1⟩ := trimPass_ok rest g1 g2 any2 hp
          have hbk : base ∈ g.keys := hsub (by simp)
          by_cases hexne : ex.Nonempty
          · have hlt1 : edgeCount g1 < edgeCount g := by
              apply edgeCount_lt g g1 hk0 (trimLayers_get_subset g base g1 ex htl)
                base hbk
              apply Finset.card_lt_card
              rw [hgetb]
              apply Finset.sdiff_ssubset ?_ hexne
              rw [hexcess]
              exact Finset.filter_subset _ _
            have hle2 : edgeCount g2 ≤ edgeCount g1 := edgeCount_le g1 g2 hk1 hs1
            omega
          · have hany2 : any2 = true := by
              rcases Bool.or_eq_true_iff.mp hor with h1 | h1
              · exact absurd (of_decide_eq_true h1) hexne
              · exact h1
            subst hany2
            have hrest : rest ⊆ g1.keys := by
              rw [hk0]
              exact fun x hx => hsub (by simp [hx])
            have hlt1 : edgeCount g2 < edgeCount g1 := ih g1 g2 hrest hp
            have hle0 : edgeCount g1 ≤ edgeCount g :=
              edgeCount_le g g1 hk0 (trimLayers_get_subset g base g1 ex htl)
            omega
    · rw [if_neg hne] at h
      exact ih g g' (fun x hx => hsub (by simp [hx])) h

/-- A `_trim_layers` call that removed nothing left the graph unchanged
(for a present key, as at every call site). -/
theorem trimLayers_empty_eq (g : Graph) (base : Ref) (g1 : Graph)
    (htl : trimLayers g base = .ok (g1, ∅)) (hbk : base ∈ g.keys) : g1 = g := by
  obtain ⟨-, hk0, hv0, -, -⟩ := trimLayers_ok g base g1 ∅ htl
  ext1
  · exact hk0
  · rw [hv0, Finset.sdiff_empty]
    simp only [Graph.get, hbk, if_pos]
    exact Function.update_eq_self base g.val

/-- A pass never removes a `latest`-tagged layer. -/
theorem trimPass_keeps_latest (l : List Ref) :
    ∀ (g g' : Graph) (any : Bool) (b layer : Ref),
      trimPass g l = .ok (g', any) → isLatest layer = true →
      layer ∈ g.get b → layer ∈ g'.get b := by
  induction l with
  | nil =>
    intro g g' any b layer h hl hm
    simp only [trimPass, Except.ok.injEq, Prod.mk.injEq] at h
    rw [← h.1]
    exact hm
  | cons base rest ih =>
    intro g g' any b layer h hl hm
    simp only [trimPass] at h
    by_cases hne : (g.get base).Nonempty
    · rw [if_pos hne] at h
      split at h
      · exact absurd h (by simp)
      · rename_i g1 ex htl
        split at h
        · exact absurd h (by simp)
        · rename_i g2 any2 hp
          simp only [Except.ok.injEq, Prod.mk.injEq] at h
          obtain ⟨hg, -⟩ := h
          subst hg
          obtain ⟨hexcess, -, -, hgetb, hgetne⟩ := trimLayers_ok g base g1 ex htl
          have hm1 : layer ∈ g1.get b := by
            by_cases hb : b = base
            · subst hb
              rw [hgetb]
              refine Finset.mem_sdiff.mpr ⟨hm, fun hx => ?_⟩
              rw [hexcess] at hx
              have hrem := (Finset.mem_filter.mp hx).2
              simp [removable, hl] at hrem
            · rw [hgetne b hb]
              exact hm
          exact ih g1 g2 any2 b layer hp hl hm1
    · rw [if_neg hne] at h
      exact ih g g' any b layer h hl hm

/-- A pass never removes a layer whose OWN derived set is still nonempty
at the end of the pass (removal requires it to be empty at removal time,
and sets only shrink). -/
theorem trimPass_keeps_needed (l : List Ref) :
    ∀ (g g' : Graph) (any : Bool) (b layer : Ref),
      trimPass g l = .ok (g', any) → layer ∈ g.get b →
      (g'.get layer).Nonempty → layer ∈ g'.get b := by
  induction l with
  | nil =>
    intro g g' any b layer h hm _
    simp only [trimPass, Except.ok.injEq, Prod.mk.injEq] at h
    rw [← h.1]
    exact hm
  | cons base rest ih =>
    intro g g' any b layer h hm hnon
    simp only [trimPass] at h
    by_cases hne : (g.get base).Nonempty
    · rw [if_pos hne] at h
      split at h
      · exact absurd h (by simp)
      · rename_i g1 ex htl
        split at h
        · exact absurd h (by simp)
        · rename_i g2 any2 hp
          simp only [Except.ok.injEq, Prod.mk.injEq] at h
          obtain ⟨hg, -⟩ := h
          subst hg
          obtain ⟨hexcess, -, -, hgetb, hgetne⟩ := trimLayers_ok g base g1 ex htl
          have hsub1 : ∀ r, g2.get r ⊆ g1.get r := (trimPass_ok rest g1 g2 any2 hp).2
          have hm1 : layer ∈ g1.get b := by
            by_cases hb : b = base
            · subst hb
              rw [hgetb]
              refine Finset.mem_sdiff.mpr ⟨hm, fun hx => ?_⟩
              rw [hexcess] at hx
              have hrem := (Finset.mem_filter.mp hx).2
              simp only [removable, Bool.and_eq_true, Bool.not_eq_true',
                decide_eq_true_eq] at hrem
              rcases hnon with ⟨x, hx2⟩
              have hmem0 : x ∈ g.get layer :=
                trimLayers_get_subset g b g1 ex htl layer (hsub1 layer hx2)
              rw [hrem.2] at hmem0
              exact absurd hmem0 (Finset.not_mem_empty x)
            · rw [hgetne b hb]
              exact hm
          exact ih g1 g2 any2 b layer hp hm1 hnon
    · rw [if_neg hne] at h
      exact ih g g' any b layer h hm hnon

/-- After a pass that removed nothing, no layer stored under any visited
base is removable. -/
theorem trimPass_false_keeps (l : List Ref) :
    ∀ (g g' : Graph), trimPass g l = .ok (g', false) →
      ∀ b ∈ l, ∀ layer ∈ g.get b, removable g layer = false := by
  induction l with
  | nil =>
    intro g g' _ b hb
    exact absurd hb (List.not_mem_nil b)
  | cons base rest ih =>
    intro g g' h b hb layer hm
    simp only [trimPass] at h
    by_cases hne : (g.get base).Nonempty
    · rw [if_pos hne] at h
      split at h
      · exact absurd h (by simp)
      · rename_i g1 ex htl
        split at h
        · exact absurd h (by simp)
        · rename_i g2 any2 hp
          simp only [Except.ok.injEq, Prod.mk.injEq, Bool.or_eq_false_iff,
            decide_eq_false_iff_not] at h
          obtain ⟨-, hex, hany⟩ := h
          subst hany
          have hexe : ex = ∅ := Finset.not_nonempty_iff_eq_empty.mp hex
          obtain ⟨hexcess, -, -, -, -⟩ := trimLayers_ok g base g1 ex htl
          have hbk : base ∈ g.keys := by
            rcases hne with ⟨x, hx⟩
            exact Graph.mem_keys_of_mem_get g base x hx
          have hg1 : g1 = g := trimLayers_empty_eq g base g1 (hexe ▸ htl) hbk
          rcases List.mem_cons.mp hb with hb1 | hb1
          · subst hb1
            by_contra hcon
            have hrem : removable g layer = true := by
              cases hr : removable g layer
              · exact absurd hr hcon
              · rfl
            have hxmem : layer ∈ ex := by
              rw [hexcess]
              exact Finset.mem_filter.mpr ⟨hm, hrem⟩
            rw [hexe] at hxmem
            exact absurd hxmem (Finset.not_mem_empty layer)
          · rw [hg1] at hp
            exact ih g g2 hp b hb1 layer hm
    · rw [if_neg hne] at h
      rcases List.mem_cons.mp hb with hb1 | hb1
      · subst hb1
        rw [Finset.not_nonempty_iff_eq_empty.mp hne] at hm
        exact absurd hm (Finset.not_mem_empty layer)
      · exact ih g g' h b hb1 layer hm

theorem trimLoop_ok_mono (fuel : Nat) :
    ∀ (g gf : Graph), trimLoop g fuel = .ok gf → ∀ r, gf.get r ⊆ g.get r := by
  induction fuel with
  | zero => intro g gf h; exact absurd h (by simp [trimLoop])
  | succ n ih =>
    intro g gf h
    simp only [trimLoop] at h
    split at h
    · exact absurd h (by simp)
    · rename_i g1 any hp
      cases any with
      | false =>
        rw [if_neg Bool.false_ne_true] at h
        simp only [Except.ok.injEq] at h
        subst h
        exact fun r => by rfl
      | true =>
        rw [if_pos rfl] at h
        intro r
        exact ((ih g1 gf h) r).trans ((trimPass_ok g.keys g g1 true hp).2 r)

theorem trimLoop_keeps_latest (fuel : Nat) :
    ∀ (g gf : Graph), trimLoop g fuel = .ok gf →
      ∀ (b layer : Ref), isLatest layer = true → layer ∈ g.get b →
        layer ∈ gf.get b := by
  induction fuel with
  | zero => intro g gf h; exact absurd h (by simp [trimLoop])
  | succ n ih =>
    intro g gf h b layer hl hm
    simp only [trimLoop] at h
    split at h
    · exact absurd h (by simp)
    · rename_i g1 any hp
      cases any with
      | false =>
        rw [if_neg Bool.false_ne_true] at h
        simp only [Except.ok.injEq] at h
        subst h
        exact hm
      | true =>
        rw [if_pos rfl] at h
        exact ih g1 gf h b layer hl
          (trimPass_keeps_latest g.keys g g1 true b layer hp hl hm)

theorem trimLoop_keeps_needed (fuel : Nat) :
    ∀ (g gf : Graph), trimLoop g fuel = .ok gf →
      ∀ (b layer : Ref), layer ∈ g.get b → (gf.get layer).Nonempty →
        layer ∈ gf.get b := by
  induction fuel with
  | zero => intro g gf h; exact absurd h (by simp [trimLoop])
  | succ n ih =>
    intro g gf h b layer hm hnon
    simp only [trimLoop] at h
    split at h
    · exact absurd h (by simp)
    · rename_i g1 any hp
      cases any with
      | false =>
        rw [if_neg Bool.false_ne_true] at h
        simp only [Except.ok.injEq] at h
        subst h
        exact hm
      | true =>
        rw [if_pos rfl] at h
        have hnon1 : (g1.get layer).Nonempty := by
          rcases hnon with ⟨x, hx⟩
          exact ⟨x, trimLoop_ok_mono n g1 gf h layer hx⟩
        exact ih g1 gf h b layer
          (trimPass_keeps_needed g.keys g g1 true b layer hp hm hnon1) hnon

/-- The graph returned by the loop is a fixed point: a further full pass
over it succeeds and removes nothing. -/
theorem trimLoop_fixed (fuel : Nat) :
    ∀ (g gf : Graph), trimLoop g fuel = .ok gf →
      trimPass gf gf.keys = .ok (gf, false) := by
  induction fuel with
  | zero => intro g gf h; exact absurd h (by simp [trimLoop])
  | succ n ih =>
    intro g gf h
    simp only [trimLoop] at h
    split at h
    · exact absurd h (by simp)
    · rename_i g1 any hp
      cases any with
      | false =>
        rw [if_neg Bool.false_ne_true] at h
        simp only [Except.ok.injEq] at h
        subst h
        have h1 : g1 = g := trimPass_false_eq g.keys g g1 hp
        rw [h1] at hp
        exact hp
      | true =>
        rw [if_pos rfl] at h
        exact ih g1 gf h

/-- With fuel exceeding the edge count, the loop never exhausts its fuel:
this is the termination argument of the `while True` loop. -/
theorem trimLoop_no_fuel_error (fuel : Nat) :
    ∀ g : Graph, edgeCount g < fuel → trimLoop g fuel ≠ .error .fuel := by
  induction fuel with
  | zero => intro g hg; omega
  | succ n ih =>
    intro g hg
    simp only [trimLoop]
    split
    · rename_i e hp
      have := trimPass_error_is_value g.keys g e hp
      simp [this]
    · rename_i g1 any hp
      cases any with
      | false => simp
      | true =>
        rw [if_pos rfl]
        have hlt : edgeCount g1 < edgeCount g :=
          trimPass_true_lt g.keys g g1 (fun x hx => hx) hp
        exact ih g1 (by omega)

/-- C9: the fixed-point iteration of `trim_excess_tags` terminates on
every graph.  Each full pass either strictly decreases the total edge
count or changes nothing; the loop exits on the first pass that removes
nothing; and the explicit loop fuel `edgeCount g + 1` supplied by
`trimExcessTags` is never exhausted. -/
theorem trim_terminates (g : Graph) :
    trimExcessTags g ≠ .error .fuel ∧
      ∀ (g' : Graph) (any : Bool), trimPass g g.keys = .ok (g', any) →
        (any = true → edgeCount g' < edgeCount g) ∧
        (any = false → g' = g ∧ trimExcessTags g = .ok g) := by
  constructor
  · exact trimLoop_no_fuel_error (edgeCount g + 1) g (by omega)
  · intro g' any hp
    constructor
    · intro h
      subst h
      exact trimPass_true_lt g.keys g g' (fun x hx => hx) hp
    · intro h
      subst h
      refine ⟨trimPass_false_eq g.keys g g' hp, ?_⟩
      simp [trimExcessTags, trimLoop, hp]

/-- Witness for C9 at a concrete input. -/
theorem trim_terminates_witness :
    trimExcessTags { keys := ["a:1"], val := fun _ => ∅ } ≠ .error .fuel ∧
      trimExcessTags { keys := ["a:1"], val := fun _ => ∅ } =
        .ok { keys := ["a:1"], val := fun _ => ∅ } := by
  refine ⟨(trim_terminates { keys := ["a:1"], val := fun _ => ∅ }).1, ?_⟩
  exact (((trim_terminates { keys := ["a:1"], val := fun _ => ∅ }).2
    { keys := ["a:1"], val := fun _ => ∅ } false (by rfl)).2 rfl).2

/-- C4: `trim_excess_tags` is idempotent — running it again on the output
of a successful run removes nothing and returns the graph unchanged (and
a failing run propagates its exception through the composition). -/
theorem trim_idempotent (g : Graph) :
    (trimExcessTags g).bind trimExcessTags = trimExcessTags g := by
  cases h : trimExcessTags g with
  | error e => rfl
  | ok gf =>
    have hfix : trimPass gf gf.keys = .ok (gf, false) :=
      trimLoop_fixed (edgeCount g + 1) g gf h
    simp only [Except.bind]
    simp [trimExcessTags, trimLoop, hfix]

/-- C3: the trimmer removes exactly the removable tags.  For a
successful run: (1) a `latest`-tagged layer is never removed; (2) a
non-`latest` layer that is a leaf of the input graph (empty or absent
derived set) is always removed; (3) every surviving layer is `latest` or
still has a nonempty derived set, i.e. a non-`latest` leaf never
survives; (4) a layer whose derived set in the output is nonempty was
never removed. -/
theorem trim_correct (g gf : Graph) (h : trimExcessTags g = .ok gf) :
    (∀ base layer, layer ∈ g.get base → isLatest layer = true →
      layer ∈ gf.get base) ∧
    (∀ base layer, layer ∈ g.get base → isLatest layer = false →
      g.get layer = ∅ → layer ∉ gf.get base) ∧
    (∀ base layer, layer ∈ gf.get base →
      isLatest layer = true ∨ (gf.get layer).Nonempty) ∧
    (∀ base layer, layer ∈ g.get base → (gf.get layer).Nonempty →
      layer ∈ gf.get base) := by
  have hmono := trimLoop_ok_mono (edgeCount g + 1) g gf h
  have hfix := trimLoop_fixed (edgeCount g + 1) g gf h
  have part3 : ∀ base layer, layer ∈ gf.get base →
      isLatest layer = true ∨ (gf.get layer).Nonempty := by
    intro base layer hm
    have hbk : base ∈ gf.keys := Graph.mem_keys_of_mem_get gf base layer hm
    have hrem : removable gf layer = false :=
      trimPass_false_keeps gf.keys gf gf hfix base hbk layer hm
    cases hl : isLatest layer with
    | true => exact Or.inl rfl
    | false =>
      right
      unfold removable at hrem
      rw [hl] at hrem
      simp only [Bool.not_false, Bool.true_and, decide_eq_false_iff_not] at hrem
      exact Finset.nonempty_iff_ne_empty.mpr hrem
  refine ⟨?_, ?_, part3, ?_⟩
  · intro base layer hm hl
    exact trimLoop_keeps_latest (edgeCount g + 1) g gf h base layer hl hm
  · intro base layer _ hl hemp hcon
    rcases part3 base layer hcon with h1 | h1
    · rw [hl] at h1
      exact absurd h1 (by simp)
    · rcases h1 with ⟨x, hx⟩
      have hx0 := hmono layer hx
      rw [hemp] at hx0
      exact absurd hx0 (Finset.not_mem_empty x)
  · intro base layer hm hnon
    exact trimLoop_keeps_needed (edgeCount g + 1) g gf h base layer hm hnon


/-- Witness for C3 at a concrete input: trimming `latestGraph` succeeds,
and its `latest` layer survives. -/
theorem trim_correct_witness :
    trimExcessTags latestGraph = .ok latestGraph ∧
      "b:latest" ∈ latestGraph.get "a:1" := by
  have h : trimExcessTags latestGraph = .ok latestGraph := rfl
  exact ⟨h, (trim_correct latestGraph latestGraph h).1 "a:1" "b:latest"
    (by decide) (by decide)⟩

/-- If a visited base holds a layer without a `':'`, the pass raises
`ValueError` from the two-variable unpacking. -/
theorem trimPass_error_of_bad (l : List Ref) :
    ∀ (g : Graph) (base layer : Ref), base ∈ l → layer ∈ g.get base →
      splitTag layer = none → trimPass g l = .error .valueError := by
  induction l with
  | nil =>
    intro g base layer hb
    exact absurd hb (List.not_mem_nil base)
  | cons b rest ih =>
    intro g base layer hb hm hbad
    simp only [trimPass]
    by_cases hbb : b = base
    · subst hbb
      rw [if_pos ⟨layer, hm⟩]
      have htl : trimLayers g b = .error .valueError := by
        unfold trimLayers
        exact if_neg fun hall => by simpa [hbad] using hall layer hm
      simp only [htl]
    · have hbrest : base ∈ rest := by
        rcases List.mem_cons.mp hb with h1 | h1
        · exact absurd h1.symm hbb
        · exact h1
      by_cases hne : (g.get b).Nonempty
      · rw [if_pos hne]
        cases htl : trimLayers g b with
        | error e =>
          have he : e = .valueError := by
            unfold trimLayers at htl
            split at htl
            · exact absurd htl (by simp)
            · simp only [Except.error.injEq] at htl
              exact htl.symm
          simp only [htl, he]
        | ok p =>
          obtain ⟨g1, ex⟩ := p
          have hm1 : layer ∈ g1.get base := by
            rw [(trimLayers_ok g b g1 ex htl).2.2.2.2 base fun hx => hbb hx.symm]
            exact hm
          simp only [htl, ih g1 base layer hbrest hm1 hbad]
      · rw [if_neg hne]
        exact ih g base layer hbrest hm hbad

/-- C10: trimming assumes every derived reference contains a `':'`.  If
any base's stored set contains a reference with no `':'`, the whole run
raises `ValueError` from `name, version = layer.split(':', 1)` instead of
skipping or keeping that reference. -/
theorem trim_missing_colon_raises (g : Graph) (base layer : Ref)
    (hmem : layer ∈ g.get base) (hbad : splitTag layer = none) :
    trimExcessTags g = .error .valueError := by
  have hb : base ∈ g.keys := Graph.mem_keys_of_mem_get g base layer hmem
  have hp := trimPass_error_of_bad g.keys g base layer hb hmem hbad
  simp [trimExcessTags, trimLoop, hp]


/-- Witness for C10 at a concrete input. -/
theorem trim_missing_colon_raises_witness :
    "nocolon" ∈ badGraph.get "a:1" ∧ splitTag "nocolon" = none ∧
      trimExcessTags badGraph = .error .valueError :=
  ⟨by decide, by decide,
    trim_missing_colon_raises badGraph "a:1" "nocolon" (by decide) (by decide)⟩

/-! ## C2: recency wins attribution -/


theorem processedOk_start (b : BuildRecord) (h : processedOk b = true) :
    b.start?.isSome = true := by
  unfold processedOk at h
  exact (Bool.and_eq_true_iff.mp h).1

/-- Destructing `processedOk`: all four lookups succeed, and the
accessors return the looked-up values. -/
theorem processedOk_dest (b : BuildRecord) (h : processedOk b = true) :
    ∃ ann bn primary w, b.annotations? = some ann ∧
      ann.baseImageName? = some bn ∧
      ann.repositories? = some (.parsed (some primary)) ∧
      b.start? = some w ∧
      baseNameOf b = bn ∧ primaryOf b = primary ∧ startKey b = w := by
  obtain ⟨ann?, s?⟩ := b
  unfold processedOk at h
  obtain ⟨hs, h⟩ := Bool.and_eq_true_iff.mp h
  cases s? with
  | none => exact absurd hs (by simp)
  | some w =>
    cases ann? with
    | none => exact absurd h (by simp)
    | some ann =>
      obtain ⟨bn?, rp?⟩ := ann
      simp only at h
      obtain ⟨hbn, hrp⟩ := Bool.and_eq_true_iff.mp h
      cases bn? with
      | none => exact absurd hbn (by simp)
      | some bn =>
        cases rp? with
        | none => exact absurd hrp (by simp)
        | some rp =>
          cases rp with
          | malformed => exact absurd hrp (by simp)
          | parsed primary? =>
            cases primary? with
            | none => exact absurd hrp (by simp)
            | some primary =>
              exact ⟨⟨some bn, some (.parsed (some primary))⟩, bn, primary, w,
                rfl, rfl, rfl, rfl, rfl, rfl, rfl⟩

/-- Converse direction: successful lookups make `processedOk` true. -/
theorem processedOk_intro (b : BuildRecord) (ann : Annotations)
    (bn : Ref) (primary : List Ref) (w : Ts)
    (h1 : b.annotations? = some ann) (h2 : ann.baseImageName? = some bn)
    (h3 : ann.repositories? = some (.parsed (some primary)))
    (h4 : b.start? = some w) :
    processedOk b = true ∧ primaryOf b = primary := by
  obtain ⟨ann?, s?⟩ := b
  simp only at h1 h4
  subst h1 h4
  obtain ⟨bn?, rp?⟩ := ann
  simp only at h2 h3
  subst h2 h3
  exact ⟨rfl, rfl⟩

/-- On the full update path, `add` returns exactly the `applyRecord`
update. -/
theorem add_processedOk (strip : Ref → Ref) (st : BuildState)
    (b : BuildRecord) (h : processedOk b = true) :
    add strip st b =
      .ok (applyRecord strip st (baseNameOf b) (primaryOf b) (startKey b)) := by
  obtain ⟨ann, bn, primary, w, h1, h2, h3, h4, h5, h6, h7⟩ := processedOk_dest b h
  rw [h5, h6, h7]
  obtain ⟨ann?, s?⟩ := b
  simp only at h1 h4
  subst h1 h4
  obtain ⟨bn?, rp?⟩ := ann
  simp only at h2 h3
  subst h2 h3
  rfl

theorem addAll_append (strip : Ref → Ref) (l1 l2 : List BuildRecord) :
    ∀ st, addAll strip st (l1 ++ l2) =
      (addAll strip st l1).bind fun st1 => addAll strip st1 l2 := by
  induction l1 with
  | nil =>
    intro st
    simp [addAll, Except.bind]
  | cons b rest ih =>
    intro st
    simp only [List.cons_append, addAll]
    cases h : add strip st b with
    | error e => simp [Except.bind]
    | ok st1 => simp [ih st1]

theorem add_seen_mono (strip : Ref → Ref) (st st' : BuildState)
    (b : BuildRecord) (h : add strip st b = .ok st') :
    st.seen ⊆ st'.seen ∧ ∀ r, st.graph.get r ⊆ st'.graph.get r := by
  rcases add_cases strip st b st' h with heq | ⟨ann, bn, primary, w, -, -, -, -, heq⟩
  · subst heq
    exact ⟨fun x hx => hx, fun r x hx => hx⟩
  · subst heq
    constructor
    · rw [applyRecord_seen]
      exact Finset.subset_union_left
    · intro r
      by_cases hr : r = strip bn
      · subst hr
        rw [applyRecord_get_base]
        exact Finset.subset_union_left
      · rw [applyRecord_get_ne _ _ _ _ _ _ hr]

theorem addAll_seen_mono (strip : Ref → Ref) (l : List BuildRecord) :
    ∀ st st', addAll strip st l = .ok st' →
      st.seen ⊆ st'.seen ∧ ∀ r, st.graph.get r ⊆ st'.graph.get r := by
  induction l with
  | nil =>
    intro st st' h
    simp only [addAll, Except.ok.injEq] at h
    subst h
    exact ⟨fun x hx => hx, fun r x hx => hx⟩
  | cons b rest ih =>
    intro st st' h
    simp only [addAll] at h
    cases hb : add strip st b with
    | error e => rw [hb] at h; exact absurd h (by simp)
    | ok st1 =>
      rw [hb] at h
      obtain ⟨h1, h2⟩ := add_seen_mono strip st st1 b hb
      obtain ⟨h3, h4⟩ := ih st1 st' h
      exact ⟨h1.trans h3, fun r => (h2 r).trans (h4 r)⟩

/-- A record that does not (successfully) claim `R` cannot introduce `R`
into `seen` or into any derived set. -/
theorem add_no_claim (strip : Ref → Ref) (st st' : BuildState)
    (b : BuildRecord) (R : Ref) (h : add strip st b = .ok st')
    (hnc : ¬(processedOk b = true ∧ R ∈ producedRefs strip b))
    (hseen : R ∉ st.seen) (hdeps : ∀ b', R ∉ st.graph.get b') :
    R ∉ st'.seen ∧ ∀ b', R ∉ st'.graph.get b' := by
  rcases add_cases strip st b st' h with heq | ⟨ann, bn, primary, w, h1, h2, h3, h4, heq⟩
  · subst heq
    exact ⟨hseen, hdeps⟩
  · obtain ⟨hok, hprim⟩ := processedOk_intro b ann bn primary w h1 h2 h3 h4
    have hRp : R ∉ (primary.map strip).toFinset := by
      intro hR
      apply hnc
      refine ⟨hok, ?_⟩
      unfold producedRefs
      rw [hprim]
      exact List.mem_toFinset.mp hR
    subst heq
    constructor
    · rw [applyRecord_seen]
      intro hR
      rcases Finset.mem_union.mp hR with hR | hR
      · exact hseen hR
      · exact hRp (Finset.mem_sdiff.mp hR).1
    · intro b'
      by_cases hb' : b' = strip bn
      · subst hb'
        rw [applyRecord_get_base]
        intro hR
        rcases Finset.mem_union.mp hR with hR | hR
        · exact hdeps _ hR
        · exact hRp (Finset.mem_sdiff.mp hR).1
      · rw [applyRecord_get_ne _ _ _ _ _ _ hb']
        exact hdeps b'

theorem addAll_no_claim (strip : Ref → Ref) (l : List BuildRecord) (R : Ref) :
    ∀ st st', addAll strip st l = .ok st' →
      (∀ a ∈ l, ¬(processedOk a = true ∧ R ∈ producedRefs strip a)) →
      R ∉ st.seen → (∀ b', R ∉ st.graph.get b') →
      R ∉ st'.seen ∧ ∀ b', R ∉ st'.graph.get b' := by
  induction l with
  | nil =>
    intro st st' h _ hseen hdeps
    simp only [addAll, Except.ok.injEq] at h
    subst h
    exact ⟨hseen, hdeps⟩
  | cons b rest ih =>
    intro st st' h hnc hseen hdeps
    simp only [addAll] at h
    cases hb : add strip st b with
    | error e => rw [hb] at h; exact absurd h (by simp)
    | ok st1 =>
      rw [hb] at h
      obtain ⟨hs1, hd1⟩ := add_no_claim strip st st1 b R hb
        (hnc b (by simp)) hseen hdeps
      exact ih st1 st' h (fun a ha => hnc a (by simp [ha])) hs1 hd1

/-- A record that claims `R`, processed while `R` is still unseen,
attributes `R` to its own (stripped) base. -/
theorem add_claims (strip : Ref → Ref) (st st' : BuildState)
    (b : BuildRecord) (R : Ref) (hok : processedOk b = true)
    (hR : R ∈ producedRefs strip b) (hseen : R ∉ st.seen)
    (h : add strip st b = .ok st') :
    R ∈ st'.graph.get (baseRefOf strip b) := by
  rw [add_processedOk strip st b hok] at h
  simp only [Except.ok.injEq] at h
  subst h
  obtain ⟨ann, bn, primary, w, h1, h2, h3, h4, h5, h6, h7⟩ := processedOk_dest b hok
  have hbase : baseRefOf strip b = strip (baseNameOf b) := rfl
  rw [hbase, h5]
  have hb5 : baseNameOf b = bn := h5
  rw [← hb5]
  rw [applyRecord_get_base]
  apply Finset.mem_union_right
  apply Finset.mem_sdiff.mpr
  refine ⟨?_, hseen⟩
  apply List.mem_toFinset.mpr
  unfold producedRefs at hR
  exact hR

theorem recOrder_trans : ∀ a b c : BuildRecord,
    recOrder a b = true → recOrder b c = true → recOrder a c = true := by
  intro a b c hab hbc
  unfold recOrder at hab hbc ⊢
  exact decide_eq_true (le_trans (of_decide_eq_true hbc) (of_decide_eq_true hab))

theorem recOrder_total : ∀ a b : BuildRecord,
    (recOrder a b || recOrder b a) = true := by
  intro a b
  simp only [recOrder, Bool.or_eq_true, decide_eq_true_eq]
  exact le_total (startKey b) (startKey a)

/-- Split a list at the first occurrence of one of its members. -/
theorem mem_first_split {α : Type} (a : α) (l : List α) (h : a ∈ l) :
    ∃ s t, l = s ++ a :: t ∧ a ∉ s := by
  induction l with
  | nil => exact absurd h (List.not_mem_nil a)
  | cons b bs ih =>
    by_cases hb : a = b
    · exact ⟨[], bs, by simp [hb], by simp⟩
    · have hm : a ∈ bs := by
        rcases List.mem_cons.mp h with h1 | h1
        · exact absurd h1 hb
        · exact h1
      obtain ⟨s, t, hst, hns⟩ := ih hm
      exact ⟨b :: s, t, by simp [hst], by simp [hns, hb]⟩

/-- C2: recency wins attribution.  If `r2` claims to have produced the
(normalized) reference `R`, takes the full update path, and every other
record claiming `R` has a strictly earlier start timestamp, then after a
successful `BuildTree.__init__` the reference `R` is attributed to `r2`'s
base and to no other base: the records are processed in descending
start-timestamp order, so the most recent claimant wins. -/
theorem builder_recency_wins (strip : Ref → Ref) (builds : List BuildRecord)
    (r2 : BuildRecord) (R : Ref) (st : BuildState)
    (hmem : r2 ∈ builds) (hok2 : processedOk r2 = true)
    (hR : R ∈ producedRefs strip r2)
    (hmax : ∀ r ∈ builds, processedOk r = true → R ∈ producedRefs strip r →
      r = r2 ∨ startKey r < startKey r2)
    (hbt : buildTree strip builds = .ok st) :
    R ∈ st.graph.get (baseRefOf strip r2) ∧
      ∀ b, b ≠ baseRefOf strip r2 → R ∉ st.graph.get b := by
  unfold buildTree at hbt
  set filtered := builds.filter (fun b => b.start?.isSome) with hfil
  set sorted := filtered.mergeSort recOrder with hsor
  have hdisj := disjInv_addAll strip sorted initState st hbt disjInv_init
  have hmem2 : r2 ∈ sorted := by
    rw [hsor]
    apply List.mem_mergeSort.mpr
    rw [hfil]
    exact List.mem_filter.mpr ⟨hmem, processedOk_start r2 hok2⟩
  obtain ⟨l1, l2, hsplit, hnotin⟩ := mem_first_split r2 sorted hmem2
  have hsorted : sorted.Pairwise fun a b => recOrder a b = true := by
    rw [hsor]
    exact List.sorted_mergeSort recOrder_trans recOrder_total filtered
  have hsub : ∀ a ∈ sorted, a ∈ builds := by
    intro a ha
    rw [hsor] at ha
    have ha2 := List.mem_mergeSort.mp ha
    rw [hfil] at ha2
    exact (List.mem_filter.mp ha2).1
  have hl1 : ∀ a ∈ l1, ¬(processedOk a = true ∧ R ∈ producedRefs strip a) := by
    intro a ha hconj
    obtain ⟨hoka, hRa⟩ := hconj
    have hab : a ∈ builds := hsub a (by rw [hsplit]; exact List.mem_append_left _ ha)
    rcases hmax a hab hoka hRa with h1 | h1
    · rw [h1] at ha
      exact hnotin ha
    · rw [hsplit] at hsorted
      have hpair := (List.pairwise_append.mp hsorted).2.2 a ha r2 (by simp)
      unfold recOrder at hpair
      exact absurd (of_decide_eq_true hpair) (not_le.mpr h1)
  rw [hsplit, addAll_append] at hbt
  cases h1p : addAll strip initState l1 with
  | error e =>
    rw [h1p] at hbt
    exact absurd hbt (by simp [Except.bind])
  | ok st1 =>
    rw [h1p] at hbt
    simp only [Except.bind] at hbt
    obtain ⟨hs1, -⟩ := addAll_no_claim strip l1 R initState st1 h1p hl1
      (by simp [initState]) (fun b' => by simp [initState, Graph.get])
    simp only [addAll] at hbt
    cases h2p : add strip st1 r2 with
    | error e =>
      rw [h2p] at hbt
      exact absurd hbt (by simp)
    | ok st2 =>
      rw [h2p] at hbt
      have hin2 : R ∈ st2.graph.get (baseRefOf strip r2) :=
        add_claims strip st1 st2 r2 R hok2 hR hs1 h2p
      have hin : R ∈ st.graph.get (baseRefOf strip r2) :=
        (addAll_seen_mono strip l2 st2 st hbt).2 _ hin2
      refine ⟨hin, fun b hb hcon => ?_⟩
      exact Finset.disjoint_left.mp (hdisj.2 b (baseRefOf strip r2) hb) hcon hin


/-- Witness for C2 at a concrete input. -/
theorem builder_recency_wins_witness :
    buildTree id [wRecord] = .ok wState ∧
      "img:1" ∈ wState.graph.get "base:1" ∧
      "img:1" ∉ wState.graph.get "other:1" := by
  have hbt : buildTree id [wRecord] = .ok wState := by
    simp only [buildTree]
    have hf : ([wRecord].filter fun b => b.start?.isSome) = [wRecord] := rfl
    rw [hf, List.mergeSort_singleton]
    rfl
  have hth := builder_recency_wins id [wRecord] wRecord "img:1" wState
    (by simp) rfl (by decide)
    (fun r hr _ _ => Or.inl (List.mem_singleton.mp hr)) hbt
  exact ⟨hbt, hth.1, hth.2 "other:1" (by decide)⟩

end Osbs
